import Mathlib

/-!
Verification of the 1BRC aggregation pipeline (src/main.rs, src/hash_table.rs).

Shallow embedding conventions:
* file bytes are modelled as `List Nat` with each element in 0..255;
* Rust `i32` arithmetic in `parse_value` wraps (release-profile semantics),
  modelled by `wrap32`; `u8` subtraction wraps, modelled by `u8sub`;
* the `u64` polynomial key hash wraps at `2 ^ 64` (`hashName`);
* `Result.min`/`max` (i32) and `mean`/`count` (i64) never overflow in the
  claims under study and are modelled as unbounded `Int`;
* the two source loops (`while next_start < mmaped.len()` in `main`, and the
  worker loop `while chunk.parse_line() {}`) are modelled with an explicit
  iteration bound (fuel); the termination theorem for the partition loop
  proves the bound `data.length + 1` is never exhausted;
* the orchestration is modelled sequentially: one worker per partition, the
  per-worker tables folded into the shared table in partition order.
-/

namespace OneBRC

/-- Bytes of the memory-mapped input file. -/
abbrev Bytes := List Nat

/-- Wrapping two-complement 32-bit interpretation of an integer, the
release-profile behaviour of Rust `i32` arithmetic. -/
def wrap32 (n : Int) : Int :=
  (n + 2147483648) % 4294967296 - 2147483648

/-- Wrapping `u8` subtraction `a - b` (release-profile behaviour of
`data[i] - b'0'` in the source), for `a, b < 256`. -/
def u8sub (a b : Nat) : Nat :=
  (a + 256 - b) % 256

/-- The per-key aggregate of main.rs (`struct Result`): running min, max,
sum (field `mean` in the source, an i64 accumulator) and count. -/
structure Result where
  name : Bytes
  min : Int
  max : Int
  mean : Int
  count : Int
  deriving DecidableEq

/-- `Result::new` of main.rs: min and max start at the i32 extremes, the sum
and count at zero.  Note that the observed value is NOT an argument. -/
def Result.new (name : Bytes) : Result :=
  { name := name, min := 2147483647, max := -2147483648, mean := 0, count := 0 }

/-- `Result::update` of main.rs: fold one observation into the aggregate. -/
def Result.update (r : Result) (value : Int) : Result :=
  { r with
    min := Min.min r.min value
    max := Max.max r.max value
    mean := r.mean + value
    count := r.count + 1 }

/-- `Result::merge` of main.rs: combine two aggregates elementwise; the name
of the receiver is kept. -/
def Result.merge (r other : Result) : Result :=
  { r with
    min := Min.min r.min other.min
    max := Max.max r.max other.max
    mean := r.mean + other.mean
    count := r.count + other.count }

/-- First index `i ≥ 0` with `l[i] = c`, scanning left to right. -/
def findIdxFrom (l : Bytes) (c : Nat) : Option Nat :=
  match l with
  | [] => none
  | b :: rest =>
    if b = c then some 0
    else
      match findIdxFrom rest c with
      | some i => some (i + 1)
      | none => none

/-- `find_next` of main.rs: first index `i ∈ [position, data.len())` with
`data[i] == char`; if there is none, the source returns `position` itself. -/
def find_next (data : Bytes) (position : Nat) (c : Nat) : Nat :=
  match findIdxFrom (data.drop position) c with
  | some i => position + i
  | none => position

/-- The byte range `data[a..b]` of a Rust slice expression. -/
def extract (data : Bytes) (a b : Nat) : Bytes :=
  (data.drop a).take (b - a)

/-- The rolling polynomial key hash of `Chunk::parse_line` (main.rs lines
89-93): `key = key * 31 + byte`, wrapping u64 arithmetic. -/
def hashName (name : Bytes) : Nat :=
  name.foldl (fun h b => (h * 31 + b) % 18446744073709551616) 0

/-- `Chunk::parse_value` of main.rs: optional leading minus at byte 0, then
all bytes except the last two are integer digits, the last byte is the
fractional digit; composed with wrapping i32 arithmetic. -/
def parse_value (data : Bytes) : Int :=
  let neg := data.getD 0 0 = 45
  let start := if neg then 1 else 0
  let intPart := (data.take (data.length - 2)).drop start
  let r0 := intPart.foldl (fun r b => wrap32 (r * 10 + (u8sub b 48 : Nat))) 0
  let result := wrap32 (r0 * 10 + (u8sub (data.getD (data.length - 1) 0) 48 : Nat))
  if neg then wrap32 (-result) else result

/-- The hash table of hash_table.rs: buckets of `(u64 key hash, value)`
pairs plus a stored entry count.  Only the `u64` hash is stored as the key;
the key bytes are not kept by the table itself. -/
structure HashTable (T : Type) where
  buckets : List (List (Nat × T))
  size : Nat

/-- `HashTable::new` of hash_table.rs: `1 << 16` empty buckets. -/
def HashTable.new {T : Type} : HashTable T :=
  { buckets := List.replicate 65536 [], size := 0 }

/-- `bucket[index].push(x)`: append `x` at the end of bucket `i`. -/
def pushAt {T : Type} (bs : List (List T)) (i : Nat) (x : T) : List (List T) :=
  bs.set i ((bs.getD i []) ++ [x])

/-- The `iter_mut().find(..)` step of `insert_or_update`: modify the first
entry of the bucket whose stored hash equals `key`; `none` if there is no
such entry.  Comparison is on the stored `u64` hash only. -/
def modifyFirst {T : Type} (bucket : List (Nat × T)) (key : Nat) (modify : T → T) :
    Option (List (Nat × T)) :=
  match bucket with
  | [] => none
  | kv :: rest =>
    if kv.1 = key then some ((kv.1, modify kv.2) :: rest)
    else (modifyFirst rest key modify).map (fun r => kv :: r)

/-- `HashTable::resize` of hash_table.rs: double the bucket count and push
every entry, in drain order, into `new_buckets[key % new_size]`. -/
def HashTable.resize {T : Type} (t : HashTable T) : HashTable T :=
  let newSize := t.buckets.length * 2
  { buckets :=
      t.buckets.flatten.foldl (fun acc kv => pushAt acc (kv.1 % newSize) kv)
        (List.replicate newSize [])
    size := t.size }

/-- `HashTable::insert_or_update` of hash_table.rs: resize when
`size >= buckets.len() * 3 / 4`, then locate the bucket by `key % len` and
either modify the first hash-equal entry or append `provide ()`. -/
def HashTable.insert_or_update {T : Type} (t : HashTable T) (key : Nat)
    (modify : T → T) (provide : Unit → T) : HashTable T :=
  let t1 := if t.buckets.length * 3 / 4 ≤ t.size then t.resize else t
  let index := key % t1.buckets.length
  let bucket := t1.buckets.getD index []
  match modifyFirst bucket key modify with
  | some b1 => { t1 with buckets := t1.buckets.set index b1 }
  | none => { t1 with buckets := pushAt t1.buckets index (key, provide ()), size := t1.size + 1 }

/-- `HashTable::key_set` of hash_table.rs: all `(hash, value)` entries in
bucket order, inside a bucket in insertion order. -/
def HashTable.key_set {T : Type} (t : HashTable T) : List (Nat × T) :=
  t.buckets.flatten

/-- `struct Chunk` of main.rs; the field named `end` in the source is
`endPos` here. -/
structure Chunk where
  data : Bytes
  endPos : Nat
  position : Nat
  result : HashTable Result

/-- `Chunk::new` of main.rs. -/
def Chunk.new (data : Bytes) (start endPos : Nat) : Chunk :=
  { data := data, endPos := endPos, position := start, result := HashTable.new }

/-- The cursor arithmetic of `Chunk::parse_line` (main.rs lines 82-87): the
semicolon search starts 3 bytes past the cursor, the newline search 3 bytes
past the semicolon; returns the key bytes, the value-region bytes, and the
new cursor position (one past the newline found). -/
def parse_line_parts (data : Bytes) (pos : Nat) : Bytes × Bytes × Nat :=
  let split_pos := find_next data (pos + 3) 59
  let name := extract data pos split_pos
  let npos := find_next data (split_pos + 3) 10 + 1
  let value := extract data (split_pos + 1) (npos - 1)
  (name, value, npos)

/-- `Chunk::parse_line` of main.rs: parse one record at the cursor, upsert
it into the private table, and report whether the cursor is still before
the chunk end. -/
def Chunk.parse_line (c : Chunk) : Chunk × Bool :=
  let parts := parse_line_parts c.data c.position
  let value := parse_value parts.2.1
  let key := hashName parts.1
  let result := c.result.insert_or_update key
    (fun r => Result.update r value) (fun _ => Result.new parts.1)
  ({ c with position := parts.2.2, result := result }, decide (parts.2.2 < c.endPos))

/-- The worker loop `while chunk.parse_line() {}` of main.rs with an
explicit iteration bound; the body always runs at least once when the
bound is positive, matching the do-while shape of the source. -/
def Chunk.runF : Nat → Chunk → Chunk
  | 0, c => c
  | fuel + 1, c =>
    let r := c.parse_line
    if r.2 then Chunk.runF fuel r.1 else r.1

/-- The worker loop with bound `endPos + 1`, which the cursor advance of
`parse_line` (at least 7 bytes per record) never exhausts. -/
def Chunk.run (c : Chunk) : Chunk :=
  Chunk.runF (c.endPos + 1) c

/-- The chunk-end computation of one iteration of the splitting loop of
main (main.rs lines 143-146): the next newline at or after
`next_start + csize` (or `find_next`-fallback), clamped to the arena
length (`if next_end > mmaped.len()`). -/
def chunkEnd (data : Bytes) (csize s : Nat) : Nat :=
  let ne0 := find_next data (s + csize) 10
  if data.length < ne0 then data.length else ne0

/-- The chunk-splitting loop of main (main.rs lines 140-150), with an
explicit iteration bound: while `next_start < len`, cut the chunk at
`chunkEnd`, emit it, and continue one byte past the cut.  `none` means the
iteration bound was exhausted. -/
def chunksLoopF (data : Bytes) (csize : Nat) : Nat → Nat → Option (List (Nat × Nat))
  | 0, _ => none
  | fuel + 1, next_start =>
    if next_start < data.length then
      match chunksLoopF data csize fuel (chunkEnd data csize next_start + 1) with
      | some tail => some ((next_start, chunkEnd data csize next_start) :: tail)
      | none => none
    else some []

/-- The partitions of the arena for `P` workers: chunk size `len / P`, loop
bound `len + 1` (proved sufficient by the termination theorem). -/
def chunks (data : Bytes) (P : Nat) : List (Nat × Nat) :=
  (chunksLoopF data (data.length / P) (data.length + 1) 0).getD []

/-- One worker of main.rs lines 155-159: scan the assigned partition with a
private table. -/
def runWorker (data : Bytes) (se : Nat × Nat) : HashTable Result :=
  (Chunk.run (Chunk.new data se.1 se.2)).result

/-- The body of the merge loop of main.rs lines 161-167: fold one
`(hash, value)` entry of a worker table into the shared table via
`insert_or_update` with `Result::merge`, providing a clone of the incoming
aggregate when the hash is absent. -/
def mergeStep (a : HashTable Result) (kv : Nat × Result) : HashTable Result :=
  a.insert_or_update kv.1 (fun r => Result.merge r kv.2) (fun _ => kv.2)

/-- The merge loop of main.rs lines 161-167: every entry of the worker
table is folded into the shared table, in `key_set` order. -/
def mergeInto (acc src : HashTable Result) : HashTable Result :=
  src.key_set.foldl mergeStep acc

/-- The whole pipeline, sequentially: partition, scan each partition with a
private table, fold the worker tables into the shared table in partition
order. -/
def runPipeline (data : Bytes) (P : Nat) : HashTable Result :=
  ((chunks data P).map (runWorker data)).foldl mergeInto HashTable.new

/-- The key names in the order the output line emits its entries (main.rs
lines 178-183 map `key_set` in table order straight to the output). -/
def outputNames (t : HashTable Result) : List Bytes :=
  t.key_set.map (fun kv => kv.2.name)

/-- Strict byte-lexicographic order on keys. -/
def lexLt : Bytes → Bytes → Bool
  | [], [] => false
  | [], _ :: _ => true
  | _ :: _, [] => false
  | a :: as, b :: bs => if a < b then true else if b < a then false else lexLt as bs

/-- Whether a list of keys is emitted in strictly increasing
byte-lexicographic order. -/
def sortedLex : List Bytes → Bool
  | a :: b :: rest => lexLt a b && sortedLex (b :: rest)
  | _ => true

/-- Reassembly of the arena from its partitions: each partition contributes
its byte range, followed by the one separator newline whenever its end
boundary is strictly inside the arena (that byte is skipped by the loop). -/
def glue (data : Bytes) (l : List (Nat × Nat)) : Bytes :=
  (l.map (fun se => extract data se.1 se.2 ++ (if se.2 < data.length then [10] else []))).flatten

/-- The partition list is contiguous, in increasing order and
non-overlapping: each partition starts where expected and ends no earlier
than it starts; the next partition starts one byte further. -/
def chainFrom : Nat → List (Nat × Nat) → Prop
  | _, [] => True
  | s, se :: rest => se.1 = s ∧ se.1 ≤ se.2 ∧ chainFrom (se.2 + 1) rest

/-- Decimal value of a digit-byte string (most significant first). -/
def decNat (ds : Bytes) : Nat :=
  ds.foldl (fun a d => a * 10 + (d - 48)) 0

/-! List-level helper lemmas used to compute hash-table operations without
forcing the 65536-element bucket spine. -/

theorem getD_replicate {α : Type} (d x : α) :
    ∀ (n i : Nat), i < n → (List.replicate n x).getD i d = x := by
  intro n
  induction n with
  | zero => intro i h; omega
  | succ m ih =>
    intro i h
    cases i with
    | zero => rfl
    | succ j => exact ih j (by omega)

theorem getD_set_self {α : Type} (d v : α) :
    ∀ (l : List α) (i : Nat), i < l.length → (l.set i v).getD i d = v := by
  intro l
  induction l with
  | nil => intro i h; simp at h
  | cons a as ih =>
    intro i h
    cases i with
    | zero => rfl
    | succ j => exact ih j (by simpa using h)

theorem getD_set_ne {α : Type} (d v : α) :
    ∀ (l : List α) (i j : Nat), i ≠ j → (l.set i v).getD j d = l.getD j d := by
  intro l
  induction l with
  | nil => intro i j _; cases i <;> rfl
  | cons a as ih =>
    intro i j hne
    cases i with
    | zero =>
      cases j with
      | zero => exact absurd rfl hne
      | succ _ => rfl
    | succ i2 =>
      cases j with
      | zero => rfl
      | succ j2 => exact ih i2 j2 (by omega)

theorem flatten_replicate_nil {α : Type} :
    ∀ n : Nat, (List.replicate n ([] : List α)).flatten = [] := by
  intro n
  induction n with
  | zero => rfl
  | succ m ih => rw [List.replicate_succ, List.flatten_cons, ih]; rfl

theorem flatten_set_replicate {α : Type} (a : List α) :
    ∀ (n i : Nat), i < n → ((List.replicate n ([] : List α)).set i a).flatten = a := by
  intro n
  induction n with
  | zero => intro i h; omega
  | succ m ih =>
    intro i h
    cases i with
    | zero =>
      rw [List.replicate_succ, List.set_cons_zero, List.flatten_cons, flatten_replicate_nil m,
        List.append_nil]
    | succ j =>
      rw [List.replicate_succ, List.set_cons_succ, List.flatten_cons, ih j (by omega)]
      rfl

theorem flatten_set_set_replicate {α : Type} (a b : List α) :
    ∀ (n i j : Nat), i < j → j < n →
      ((((List.replicate n ([] : List α)).set i a).set j b)).flatten = a ++ b := by
  intro n
  induction n with
  | zero => intro i j _ h; omega
  | succ m ih =>
    intro i j hij hj
    cases i with
    | zero =>
      cases j with
      | zero => omega
      | succ j2 =>
        rw [List.replicate_succ, List.set_cons_zero, List.set_cons_succ, List.flatten_cons,
          flatten_set_replicate b m j2 (by omega)]
    | succ i2 =>
      cases j with
      | zero => omega
      | succ j2 =>
        rw [List.replicate_succ, List.set_cons_succ, List.set_cons_succ, List.flatten_cons,
          ih i2 j2 (by omega) (by omega)]
        rfl

/-! Closed-form behaviour of `insert_or_update` below the resize threshold. -/

theorem new_buckets {T : Type} :
    (HashTable.new : HashTable T).buckets = List.replicate 65536 [] := rfl

theorem new_buckets_length {T : Type} :
    (HashTable.new : HashTable T).buckets.length = 65536 :=
  List.length_replicate 65536 []

theorem new_size {T : Type} : (HashTable.new : HashTable T).size = 0 := rfl

theorem insert_fresh {T : Type} (t : HashTable T) (k : Nat) (m : T → T) (p : Unit → T)
    (hsize : ¬ (t.buckets.length * 3 / 4 ≤ t.size))
    (hbucket : t.buckets.getD (k % t.buckets.length) [] = []) :
    t.insert_or_update k m p
      = { t with
            buckets := t.buckets.set (k % t.buckets.length) [(k, p ())]
            size := t.size + 1 } := by
  simp only [HashTable.insert_or_update, if_neg hsize, hbucket, modifyFirst, pushAt,
    List.nil_append]

theorem insert_hit {T : Type} (t : HashTable T) (k : Nat) (m : T → T) (p : Unit → T)
    (v : T) (rest : List (Nat × T))
    (hsize : ¬ (t.buckets.length * 3 / 4 ≤ t.size))
    (hbucket : t.buckets.getD (k % t.buckets.length) [] = (k, v) :: rest) :
    t.insert_or_update k m p
      = { t with buckets := t.buckets.set (k % t.buckets.length) ((k, m v) :: rest) } := by
  simp only [HashTable.insert_or_update, if_neg hsize, hbucket, modifyFirst, if_true,
    eq_self_iff_true]

/-- Claim C1: the claim states that an upsert of a fresh key appends an entry
containing exactly the one observation (min = max = sum = value, count = 1).
The code appends `Result::new(name)` without folding in the observed value
(main.rs lines 95-99 pass `Result::new` as the provider and
hash_table.rs line 43 pushes it unmodified), so the fresh entry records ZERO
observations: min stays at the i32 maximum, sum and count stay 0.  This
theorem evaluates the upsert of key Abc with scaled value 10 on an empty
Aggregator and exhibits the divergence. -/
theorem c1_upsert_drops_first_observation :
    (HashTable.new.insert_or_update (hashName [65, 98, 99])
        (fun r => Result.update r 10) (fun _ => Result.new [65, 98, 99])).key_set
      = [(65602, Result.new [65, 98, 99])]
    ∧ (Result.new [65, 98, 99]).count = 0
    ∧ (Result.new [65, 98, 99]).min = 2147483647
    ∧ (Result.new [65, 98, 99]).mean = 0
    ∧ ¬ ((Result.new [65, 98, 99]).count = 1) := by
  have hk : hashName [65, 98, 99] = 65602 := by decide
  have hins := insert_fresh (HashTable.new : HashTable Result) 65602
      (fun r => Result.update r 10) (fun _ => Result.new [65, 98, 99])
      (by rw [new_buckets_length]; decide)
      (by rw [new_buckets_length]; exact getD_replicate _ _ _ _ (by decide))
  rw [hk, hins]
  refine ⟨?_, rfl, rfl, rfl, by decide⟩
  simp only [HashTable.key_set, new_buckets]
  rw [List.length_replicate, show (65602 % 65536 : Nat) = 66 from by decide]
  exact flatten_set_replicate _ 65536 66 (by decide)

/-! Normal forms of `insert_or_update` on small tables (below the resize
threshold) whose bucket array is `replicate 65536 []` with a few buckets
set, as produced by the runs studied in the concrete theorems below. -/

theorem insert_fresh_new (k idx : Nat) (m : Result → Result) (p : Unit → Result)
    (hk : k % 65536 = idx) :
    (HashTable.new : HashTable Result).insert_or_update k m p
      = HashTable.mk ((List.replicate 65536 []).set idx [(k, p ())]) 1 := by
  have h := insert_fresh (HashTable.new : HashTable Result) k m p
      (by rw [new_buckets_length]; decide)
      (by rw [new_buckets_length, hk]
          exact getD_replicate _ _ _ _ (by omega))
  rw [h]
  simp only [new_buckets, new_buckets_length, new_size, List.length_replicate, hk]

theorem insert_fresh_set (idx1 : Nat) (b1 : List (Nat × Result)) (s k idx : Nat)
    (m : Result → Result) (p : Unit → Result)
    (hs : s < 49152) (hk : k % 65536 = idx) (hne : idx ≠ idx1) :
    (HashTable.mk ((List.replicate 65536 ([] : List (Nat × Result))).set idx1 b1) s).insert_or_update k m p
      = HashTable.mk (((List.replicate 65536 []).set idx1 b1).set idx [(k, p ())]) (s + 1) := by
  have h := insert_fresh (HashTable.mk ((List.replicate 65536 ([] : List (Nat × Result))).set idx1 b1) s) k m p
      (by simp only [List.length_set, List.length_replicate]; omega)
      (by simp only [List.length_set, List.length_replicate, hk]
          rw [getD_set_ne _ _ _ _ _ (fun h2 => hne h2.symm)]
          exact getD_replicate _ _ _ _ (by omega))
  rw [h]
  simp only [List.length_set, List.length_replicate, hk]

theorem insert_hit_set (idx1 : Nat) (v : Result) (rest : List (Nat × Result)) (s k : Nat)
    (m : Result → Result) (p : Unit → Result)
    (hs : s < 49152) (hk : k % 65536 = idx1) :
    (HashTable.mk ((List.replicate 65536 ([] : List (Nat × Result))).set idx1 ((k, v) :: rest)) s).insert_or_update k m p
      = HashTable.mk ((List.replicate 65536 []).set idx1 ((k, m v) :: rest)) s := by
  have h := insert_hit (HashTable.mk ((List.replicate 65536 ([] : List (Nat × Result))).set idx1 ((k, v) :: rest)) s) k m p v rest
      (by simp only [List.length_set, List.length_replicate]; omega)
      (by simp only [List.length_set, List.length_replicate, hk]
          exact getD_set_self _ _ _ _ (by simp only [List.length_replicate]; omega))
  rw [h]
  simp only [List.length_set, List.length_replicate, hk, List.set_set]

theorem key_set_one (idx : Nat) (b : List (Nat × Result)) (s : Nat) (h : idx < 65536) :
    (HashTable.mk ((List.replicate 65536 ([] : List (Nat × Result))).set idx b) s).key_set = b := by
  simp only [HashTable.key_set]
  exact flatten_set_replicate _ _ _ h

theorem key_set_two (idx1 idx2 : Nat) (b1 b2 : List (Nat × Result)) (s : Nat)
    (h12 : idx1 < idx2) (h2 : idx2 < 65536) :
    (HashTable.mk (((List.replicate 65536 ([] : List (Nat × Result))).set idx1 b1).set idx2 b2) s).key_set
      = b1 ++ b2 := by
  simp only [HashTable.key_set]
  exact flatten_set_set_replicate _ _ _ _ _ h12 h2

/-- Claim C2: the claim states that two distinct keys with equal hashes are
kept as separate entries, the lookup comparing stored key bytes.  The code
stores only the u64 hash and compares hashes (hash_table.rs line 38), so the
distinct keys Aaa and BBa, whose polynomial-31 hashes are both 65569, are
conflated: after upserting both, the Aggregator holds ONE entry, named Aaa,
whose aggregate has absorbed the observation of BBa. -/
theorem c2_hash_collision_conflates :
    ([65, 97, 97] : Bytes) ≠ [66, 66, 97]
    ∧ hashName [65, 97, 97] = hashName [66, 66, 97]
    ∧ ((HashTable.new.insert_or_update (hashName [65, 97, 97])
          (fun r => Result.update r 10) (fun _ => Result.new [65, 97, 97])).insert_or_update
          (hashName [66, 66, 97])
          (fun r => Result.update r 20) (fun _ => Result.new [66, 66, 97])).key_set
        = [(65569, Result.update (Result.new [65, 97, 97]) 20)]
    ∧ ((HashTable.new.insert_or_update (hashName [65, 97, 97])
          (fun r => Result.update r 10) (fun _ => Result.new [65, 97, 97])).insert_or_update
          (hashName [66, 66, 97])
          (fun r => Result.update r 20) (fun _ => Result.new [66, 66, 97])).size = 1 := by
  have hk1 : hashName [65, 97, 97] = 65569 := by decide
  have hk2 : hashName [66, 66, 97] = 65569 := by decide
  rw [hk1, hk2, insert_fresh_new 65569 33 _ _ (by decide),
    insert_hit_set 33 _ _ 1 65569 _ _ (by decide) (by decide)]
  refine ⟨by decide, rfl, ?_, rfl⟩
  rw [key_set_one 33 _ 1 (by decide)]

/-! Algebra of `Result::merge`. -/

theorem merge_assoc (a b c : Result) :
    (a.merge b).merge c = a.merge (b.merge c) := by
  simp only [Result.merge, Result.mk.injEq]
  refine ⟨trivial, ?_, ?_, ?_, ?_⟩ <;> omega

theorem merge_left_comm (i a b : Result) :
    (i.merge a).merge b = (i.merge b).merge a := by
  simp only [Result.merge, Result.mk.injEq]
  refine ⟨trivial, ?_, ?_, ?_, ?_⟩ <;> omega

theorem foldl_merge_perm (l1 l2 : List Result) (h : l1.Perm l2) :
    ∀ init : Result, l1.foldl Result.merge init = l2.foldl Result.merge init := by
  induction h with
  | nil => intro _; rfl
  | cons x _ ih => intro init; simp only [List.foldl_cons]; exact ih _
  | swap x y l => intro init; simp only [List.foldl_cons]; rw [merge_left_comm]
  | trans _ _ ih1 ih2 => intro init; exact (ih1 init).trans (ih2 init)

theorem mergeStep_pair (a : HashTable Result) (k : Nat) (v : Result) :
    mergeStep a (k, v) = a.insert_or_update k (fun r => Result.merge r v) (fun _ => v) := rfl

theorem mergeInto_key_set (acc src : HashTable Result) (es : List (Nat × Result))
    (h : src.key_set = es) : mergeInto acc src = es.foldl mergeStep acc := by
  rw [mergeInto, h]

/-- Claim C8 counterexample: the dataset for key Abc with scaled observations
10 and 20, partitioned into the two singleton subsets.  The one-pass upsert
aggregate carries count 1 (the first observation is dropped by the fresh
insert), while folding the two per-subset Aggregates with the merge path of
main carries count 0 (each subset drops its own single observation).  The
per-key {min, max, sum, count} are therefore NOT identical between a
one-pass aggregation and a fold of per-subset aggregates, refuting the
claimed equality at this input. -/
theorem c8_counterexample :
    (((HashTable.new.insert_or_update (hashName [65, 98, 99])
          (fun r => Result.update r 10) (fun _ => Result.new [65, 98, 99])).insert_or_update
          (hashName [65, 98, 99]) (fun r => Result.update r 20)
          (fun _ => Result.new [65, 98, 99])).key_set.map (fun kv => kv.2.count) = [1])
    ∧ ((mergeInto (mergeInto HashTable.new
          (HashTable.new.insert_or_update (hashName [65, 98, 99])
            (fun r => Result.update r 10) (fun _ => Result.new [65, 98, 99])))
          (HashTable.new.insert_or_update (hashName [65, 98, 99])
            (fun r => Result.update r 20) (fun _ => Result.new [65, 98, 99]))).key_set.map
          (fun kv => kv.2.count) = [0])
    ∧ ((1 : Int) ≠ 0) := by
  have hk : hashName [65, 98, 99] = 65602 := by decide
  rw [hk]
  rw [insert_fresh_new 65602 66 _ _ (by decide)]
  rw [insert_hit_set 66 _ _ 1 65602 _ _ (by decide) (by decide)]
  rw [insert_fresh_new 65602 66 (fun r => Result.update r 20) _ (by decide)]
  refine ⟨?_, ?_, by decide⟩
  · rw [key_set_one 66 _ 1 (by decide)]
    decide
  · rw [mergeInto_key_set HashTable.new _ _ (key_set_one 66 _ 1 (by decide)),
      List.foldl_cons, List.foldl_nil, mergeStep_pair,
      insert_fresh_new 65602 66 _ _ (by decide)]
    rw [mergeInto_key_set _ _ _ (key_set_one 66 _ 1 (by decide)),
      List.foldl_cons, List.foldl_nil, mergeStep_pair,
      insert_hit_set 66 _ _ 1 65602 _ _ (by decide) (by decide),
      key_set_one 66 _ 1 (by decide)]
    decide

theorem parse_line_eq (c : Chunk) (key value : Bytes) (npos : Nat)
    (h : parse_line_parts c.data c.position = (key, value, npos)) :
    c.parse_line = ({ c with
        position := npos
        result := c.result.insert_or_update (hashName key)
          (fun r => Result.update r (parse_value value)) (fun _ => Result.new key) },
      decide (npos < c.endPos)) := by
  simp only [Chunk.parse_line, h]

theorem runF_succ (fuel : Nat) (c : Chunk) :
    Chunk.runF (fuel + 1) c
      = (if (c.parse_line).2 = true then Chunk.runF fuel (c.parse_line).1
         else (c.parse_line).1) := rfl

theorem key_set_two_rev (idx1 idx2 : Nat) (b1 b2 : List (Nat × Result)) (s : Nat)
    (h21 : idx2 < idx1) (h1 : idx1 < 65536) :
    (HashTable.mk (((List.replicate 65536 ([] : List (Nat × Result))).set idx1 b1).set idx2 b2) s).key_set
      = b2 ++ b1 := by
  simp only [HashTable.key_set]
  rw [List.set_comm b1 b2 (List.replicate 65536 []) (show idx1 ≠ idx2 by omega)]
  exact flatten_set_set_replicate _ _ _ _ _ h21 h1

theorem runWorker_abc_eval :
    runWorker [65, 98, 99, 59, 49, 46, 48, 10] (0, 8)
      = HashTable.mk ((List.replicate 65536 []).set 66 [(65602, Result.new [65, 98, 99])]) 1 := by
  unfold runWorker Chunk.run Chunk.new
  rw [show ((Chunk.mk [65, 98, 99, 59, 49, 46, 48, 10] 8 0 HashTable.new).endPos + 1)
      = 8 + 1 from rfl]
  rw [runF_succ]
  rw [parse_line_eq _ [65, 98, 99] [49, 46, 48] 8 (by decide)]
  rw [show hashName [65, 98, 99] = 65602 from by decide]
  rw [insert_fresh_new 65602 66 _ _ (by decide)]
  rw [if_neg (by decide)]

/-- Claim C5: the claim states that no observation is dropped from the final
merged result.  This theorem runs the whole (sequential) pipeline on the
single-record input `Abc;1.0` followed by a newline: the record parses to
the observation 10 for key Abc (third conjunct), yet the final merged table
holds exactly one entry, `Result::new` for Abc with count 0 and sum 0 — the
single observation of the input was dropped (the fresh-key upsert inserts
`Result::new(name)` without folding the value in). -/
theorem c5_observation_dropped :
    (runPipeline [65, 98, 99, 59, 49, 46, 48, 10] 1).key_set
      = [(65602, Result.new [65, 98, 99])]
    ∧ (Result.new [65, 98, 99]).count = 0
    ∧ parse_value [49, 46, 48] = 10 := by
  refine ⟨?_, rfl, by decide⟩
  unfold runPipeline
  rw [show chunks [65, 98, 99, 59, 49, 46, 48, 10] 1 = [(0, 8)] from by decide]
  rw [List.map_cons, List.map_nil, List.foldl_cons, List.foldl_nil]
  rw [runWorker_abc_eval]
  rw [mergeInto_key_set HashTable.new _ _ (key_set_one 66 _ 1 (by decide)),
    List.foldl_cons, List.foldl_nil, mergeStep_pair,
    insert_fresh_new 65602 66 _ _ (by decide),
    key_set_one 66 _ 1 (by decide)]

theorem runWorker_dzz_eaa_eval :
    runWorker [68, 122, 122, 59, 49, 46, 48, 10, 69, 65, 65, 59, 50, 46, 48, 10] (0, 16)
      = HashTable.mk
          (((List.replicate 65536 []).set 3716 [(69252, Result.new [68, 122, 122])]).set 2853
            [(68389, Result.new [69, 65, 65])]) 2 := by
  unfold runWorker Chunk.run Chunk.new
  rw [show ((Chunk.mk [68, 122, 122, 59, 49, 46, 48, 10, 69, 65, 65, 59, 50, 46, 48, 10] 16 0
      HashTable.new).endPos + 1) = 16 + 1 from rfl]
  rw [runF_succ]
  rw [parse_line_eq _ [68, 122, 122] [49, 46, 48] 8 (by decide)]
  rw [show hashName [68, 122, 122] = 69252 from by decide]
  rw [insert_fresh_new 69252 3716 _ _ (by decide)]
  rw [if_pos (by decide)]
  rw [show (16 : Nat) = 15 + 1 from rfl, runF_succ]
  rw [parse_line_eq _ [69, 65, 65] [50, 46, 48] 16 (by decide)]
  rw [show hashName [69, 65, 65] = 68389 from by decide]
  rw [insert_fresh_set 3716 _ 1 68389 2853 _ _ (by decide) (by decide) (by decide)]
  rw [if_neg (by decide)]

/-- Claim C3: the claim states that the entries of the final output line are
emitted sorted by key in byte-lexicographic order.  The code (main.rs lines
178-183) maps `key_set` straight to the output with no sort, so entries come
out in bucket order (hash mod 65536).  On the input with records for keys
Dzz then EAA, bucket(EAA) = 2853 < 3716 = bucket(Dzz), so the pipeline emits
EAA before Dzz although Dzz is byte-lexicographically smaller: the emitted
order is not sorted. -/
theorem c3_output_not_sorted :
    outputNames (runPipeline [68, 122, 122, 59, 49, 46, 48, 10, 69, 65, 65, 59, 50, 46, 48, 10] 1)
      = [[69, 65, 65], [68, 122, 122]]
    ∧ sortedLex (outputNames (runPipeline
        [68, 122, 122, 59, 49, 46, 48, 10, 69, 65, 65, 59, 50, 46, 48, 10] 1)) = false
    ∧ lexLt [68, 122, 122] [69, 65, 65] = true := by
  have hout : outputNames (runPipeline
      [68, 122, 122, 59, 49, 46, 48, 10, 69, 65, 65, 59, 50, 46, 48, 10] 1)
      = [[69, 65, 65], [68, 122, 122]] := by
    unfold outputNames runPipeline
    rw [show chunks [68, 122, 122, 59, 49, 46, 48, 10, 69, 65, 65, 59, 50, 46, 48, 10] 1
        = [(0, 16)] from by decide]
    rw [List.map_cons, List.map_nil, List.foldl_cons, List.foldl_nil]
    rw [runWorker_dzz_eaa_eval]
    rw [mergeInto_key_set HashTable.new _ _ (key_set_two_rev 3716 2853 _ _ 2 (by decide) (by decide))]
    rw [List.singleton_append]
    rw [List.foldl_cons, List.foldl_cons, List.foldl_nil, mergeStep_pair, mergeStep_pair]
    rw [insert_fresh_new 68389 2853 _ _ (by decide)]
    rw [insert_fresh_set 2853 _ 1 69252 3716 _ _ (by decide) (by decide) (by decide)]
    rw [key_set_two 2853 3716 _ _ 2 (by decide) (by decide)]
    decide
  exact ⟨hout, by rw [hout]; decide, by decide⟩

/-- Claim C8 (amended): `Result::merge` is associative, commutative on the
statistics fields {min, max, sum, count}, and folding a fixed collection of
per-key Aggregates in any order yields the identical result, so the order
of the merge fold does not affect the numbers.  (The original claim also
equated the fold of per-subset Aggregates with a one-pass upsert
aggregation of the whole dataset; that equality fails on the code because
the upsert drops the first observation of each key in each subset — see the
counterexample.) -/
theorem c8_merge_fold_order_free :
    (∀ a b c : Result, (a.merge b).merge c = a.merge (b.merge c))
    ∧ (∀ a b : Result, (a.merge b).min = (b.merge a).min
        ∧ (a.merge b).max = (b.merge a).max
        ∧ (a.merge b).mean = (b.merge a).mean
        ∧ (a.merge b).count = (b.merge a).count)
    ∧ (∀ (l1 l2 : List Result), l1.Perm l2 →
        ∀ init : Result, l1.foldl Result.merge init = l2.foldl Result.merge init) := by
  refine ⟨merge_assoc, ?_, foldl_merge_perm⟩
  intro a b
  simp only [Result.merge]
  refine ⟨?_, ?_, ?_, ?_⟩ <;> omega

/-- Witness for the C8 theorem at a concrete permutation of two concrete
aggregates. -/
theorem c8_merge_fold_order_free_witness :
    ([Result.new [65], Result.new [66]].Perm [Result.new [66], Result.new [65]])
    ∧ List.foldl Result.merge (Result.new [67]) [Result.new [65], Result.new [66]]
      = List.foldl Result.merge (Result.new [67]) [Result.new [66], Result.new [65]] :=
  ⟨List.Perm.swap _ _ _,
    c8_merge_fold_order_free.2.2 _ _ (List.Perm.swap _ _ _) (Result.new [67])⟩

/-! Characterisation of the byte search `find_next`. -/

theorem findIdxFrom_some (c : Nat) :
    ∀ (l : Bytes) (i : Nat), findIdxFrom l c = some i → l[i]? = some c := by
  intro l
  induction l with
  | nil => intro i h; exact absurd h (by simp [findIdxFrom])
  | cons b rest ih =>
    intro i h
    rw [findIdxFrom] at h
    by_cases hb : b = c
    · rw [if_pos hb] at h
      obtain rfl : (0 : Nat) = i := Option.some.inj h
      simp [hb]
    · rw [if_neg hb] at h
      cases hr : findIdxFrom rest c with
      | none => rw [hr] at h; exact absurd h (by simp)
      | some j =>
        rw [hr] at h
        obtain rfl : j + 1 = i := Option.some.inj h
        simpa using ih j hr

theorem findIdxFrom_none (c : Nat) :
    ∀ (l : Bytes), findIdxFrom l c = none → c ∉ l := by
  intro l
  induction l with
  | nil => intro _ h; simp at h
  | cons b rest ih =>
    intro h
    rw [findIdxFrom] at h
    by_cases hb : b = c
    · rw [if_pos hb] at h; exact absurd h (by simp)
    · rw [if_neg hb] at h
      cases hr : findIdxFrom rest c with
      | some j => rw [hr] at h; exact absurd h (by simp)
      | none =>
        simp only [List.mem_cons, not_or]
        exact ⟨fun hc => hb hc.symm, ih hr⟩

theorem findIdxFrom_append (c : Nat) :
    ∀ (xs ys : Bytes), c ∉ xs → findIdxFrom (xs ++ c :: ys) c = some xs.length := by
  intro xs
  induction xs with
  | nil => intro ys _; simp [findIdxFrom]
  | cons b xs ih =>
    intro ys hmem
    rw [List.cons_append, findIdxFrom,
      if_neg (by intro h; subst h; exact hmem (List.mem_cons_self b xs)),
      ih ys (fun h => hmem (List.mem_cons_of_mem b h))]
    simp

theorem find_next_ge (data : Bytes) (p c : Nat) : p ≤ find_next data p c := by
  unfold find_next
  cases h : findIdxFrom (data.drop p) c with
  | some i => exact Nat.le_add_right p i
  | none => exact Nat.le.refl

theorem find_next_found (data : Bytes) (p c i : Nat)
    (h : findIdxFrom (data.drop p) c = some i) :
    find_next data p c = p + i ∧ data[p + i]? = some c := by
  refine ⟨by unfold find_next; rw [h], ?_⟩
  have h2 := findIdxFrom_some c (data.drop p) i h
  rwa [List.getElem?_drop] at h2

theorem find_next_none (data : Bytes) (p c : Nat)
    (h : findIdxFrom (data.drop p) c = none) : find_next data p c = p := by
  unfold find_next; rw [h]

theorem find_next_split (data : Bytes) (p c : Nat) (xs ys : Bytes)
    (hdrop : data.drop p = xs ++ c :: ys) (hxs : c ∉ xs) :
    find_next data p c = p + xs.length := by
  unfold find_next
  rw [hdrop, findIdxFrom_append c xs ys hxs]

/-! Facts about one iteration of the chunk-splitting loop. -/

theorem chunkEnd_ge (data : Bytes) (csize s : Nat) (hs : s < data.length) :
    s ≤ chunkEnd data csize s := by
  simp only [chunkEnd]
  have := find_next_ge data (s + csize) 10
  split <;> omega

theorem chunkEnd_le (data : Bytes) (csize s : Nat) :
    chunkEnd data csize s ≤ data.length := by
  simp only [chunkEnd]
  split <;> omega

theorem chunkEnd_newline (data : Bytes) (csize s : Nat)
    (hNL : data = [] ∨ data[data.length - 1]? = some 10)
    (hlt : chunkEnd data csize s < data.length) :
    data[chunkEnd data csize s]? = some 10 := by
  simp only [chunkEnd] at hlt ⊢
  cases h : findIdxFrom (data.drop (s + csize)) 10 with
  | some i =>
    obtain ⟨hfn, hbyte⟩ := find_next_found data (s + csize) 10 i h
    obtain ⟨hlen, _⟩ := List.getElem?_eq_some.mp hbyte
    rw [hfn] at hlt ⊢
    rw [if_neg (by omega)] at hlt ⊢
    exact hbyte
  | none =>
    exfalso
    have hfn := find_next_none data (s + csize) 10 h
    rw [hfn] at hlt
    have hnotmem := findIdxFrom_none 10 _ h
    by_cases hsc : s + csize < data.length
    · cases hNL with
      | inl h0 => rw [h0] at hsc; simp at hsc
      | inr h10 =>
        apply hnotmem
        have h2 : (data.drop (s + csize))[data.length - 1 - (s + csize)]? = some 10 := by
          rw [List.getElem?_drop,
            show s + csize + (data.length - 1 - (s + csize)) = data.length - 1 by omega]
          exact h10
        obtain ⟨hlt2, heq⟩ := List.getElem?_eq_some.mp h2
        exact heq ▸ List.getElem_mem hlt2
    · split at hlt <;> omega

/-! Termination, bounds and reconstruction of the chunk-splitting loop. -/

theorem chunksLoopF_isSome (data : Bytes) (csize : Nat) :
    ∀ (fuel s : Nat), data.length - s < fuel → (chunksLoopF data csize fuel s).isSome := by
  intro fuel
  induction fuel with
  | zero => intro s h; omega
  | succ m ih =>
    intro s h
    rw [chunksLoopF]
    by_cases hs : s < data.length
    · rw [if_pos hs]
      have hge := chunkEnd_ge data csize s hs
      have hrec := ih (chunkEnd data csize s + 1) (by omega)
      cases hcall : chunksLoopF data csize m (chunkEnd data csize s + 1) with
      | some tail => simp
      | none => rw [hcall] at hrec; simp at hrec
    · rw [if_neg hs]; simp

theorem chunksLoopF_agree (data : Bytes) (csize : Nat) :
    ∀ (f1 f2 s : Nat), data.length - s < f1 → data.length - s < f2 →
      chunksLoopF data csize f1 s = chunksLoopF data csize f2 s := by
  intro f1
  induction f1 with
  | zero => intro f2 s h1 h2; omega
  | succ m1 ih =>
    intro f2 s h1 h2
    cases f2 with
    | zero => omega
    | succ m2 =>
      rw [chunksLoopF, chunksLoopF]
      by_cases hs : s < data.length
      · rw [if_pos hs, if_pos hs]
        have hge := chunkEnd_ge data csize s hs
        rw [ih m2 (chunkEnd data csize s + 1) (by omega) (by omega)]
      · rw [if_neg hs, if_neg hs]

theorem chunksLoopF_bounds (data : Bytes) (csize : Nat) :
    ∀ (fuel s : Nat) (l : List (Nat × Nat)),
      chunksLoopF data csize fuel s = some l →
      ∀ se ∈ l, s ≤ se.1 ∧ se.1 < data.length ∧ se.1 ≤ se.2 ∧ se.2 ≤ data.length := by
  intro fuel
  induction fuel with
  | zero => intro s l h; simp [chunksLoopF] at h
  | succ m ih =>
    intro s l h
    rw [chunksLoopF] at h
    by_cases hs : s < data.length
    · rw [if_pos hs] at h
      cases hcall : chunksLoopF data csize m (chunkEnd data csize s + 1) with
      | none => rw [hcall] at h; exact absurd h (by simp)
      | some tail =>
        rw [hcall] at h
        obtain rfl : (s, chunkEnd data csize s) :: tail = l := Option.some.inj h
        intro se hse
        rcases List.mem_cons.mp hse with rfl | hmem
        · exact ⟨Nat.le_refl s, hs, chunkEnd_ge data csize s hs, chunkEnd_le data csize s⟩
        · have hge := chunkEnd_ge data csize s hs
          obtain ⟨h1, h2, h3, h4⟩ := ih _ _ hcall se hmem
          exact ⟨by omega, h2, h3, h4⟩
    · rw [if_neg hs] at h
      obtain rfl : ([] : List (Nat × Nat)) = l := Option.some.inj h
      intro se hse
      simp at hse

theorem glue_cons (data : Bytes) (se : Nat × Nat) (l : List (Nat × Nat)) :
    glue data (se :: l)
      = (extract data se.1 se.2 ++ (if se.2 < data.length then [10] else [])) ++ glue data l := by
  unfold glue
  rw [List.map_cons, List.flatten_cons]

theorem drop_step (data : Bytes) (s e : Nat) (hse : s ≤ e)
    (hbyte : data[e]? = some 10) :
    data.drop s = extract data s e ++ 10 :: data.drop (e + 1) := by
  obtain ⟨hlt, heq⟩ := List.getElem?_eq_some.mp hbyte
  have h1 := (List.take_append_drop (e - s) (data.drop s)).symm
  rw [List.drop_drop, show s + (e - s) = e by omega, List.drop_eq_getElem_cons hlt, heq] at h1
  rw [extract]
  exact h1

theorem drop_last_chunk (data : Bytes) (s : Nat) :
    data.drop s = extract data s data.length := by
  rw [extract]
  rw [List.take_of_length_le (by rw [List.length_drop])]

theorem c4_loop (data : Bytes) (csize : Nat)
    (hNL : data = [] ∨ data[data.length - 1]? = some 10) :
    ∀ (fuel s : Nat) (l : List (Nat × Nat)),
      chunksLoopF data csize fuel s = some l →
      data.drop s = glue data l
      ∧ chainFrom s l
      ∧ ∀ se ∈ l, se.2 = data.length ∨ data[se.2]? = some 10 := by
  intro fuel
  induction fuel with
  | zero => intro s l h; simp [chunksLoopF] at h
  | succ m ih =>
    intro s l h
    rw [chunksLoopF] at h
    by_cases hs : s < data.length
    · rw [if_pos hs] at h
      cases hcall : chunksLoopF data csize m (chunkEnd data csize s + 1) with
      | none => rw [hcall] at h; exact absurd h (by simp)
      | some tail =>
        rw [hcall] at h
        obtain rfl : (s, chunkEnd data csize s) :: tail = l := Option.some.inj h
        obtain ⟨ihg, ihc, ihb⟩ := ih _ _ hcall
        have hge := chunkEnd_ge data csize s hs
        have hle := chunkEnd_le data csize s
        refine ⟨?_, ⟨rfl, hge, ihc⟩, ?_⟩
        · rw [glue_cons, ← ihg]
          by_cases hlt : chunkEnd data csize s < data.length
          · rw [if_pos hlt]
            have hbyte := chunkEnd_newline data csize s hNL hlt
            rw [drop_step data s _ hge hbyte, List.append_assoc, List.singleton_append]
          · rw [if_neg hlt]
            have heq : chunkEnd data csize s = data.length := by omega
            rw [heq, List.drop_eq_nil_of_le (by omega : data.length ≤ data.length + 1),
              List.append_nil, List.append_nil]
            exact drop_last_chunk data s
        · intro se hse
          rcases List.mem_cons.mp hse with rfl | hmem
          · by_cases hlt : chunkEnd data csize s < data.length
            · exact Or.inr (chunkEnd_newline data csize s hNL hlt)
            · exact Or.inl (by omega)
          · exact ihb se hmem
    · rw [if_neg hs] at h
      obtain rfl : ([] : List (Nat × Nat)) = l := Option.some.inj h
      refine ⟨?_, trivial, by intro se hse; simp at hse⟩
      rw [List.drop_eq_nil_of_le (by omega)]
      rfl

/-- Claim C10: for every arena and every partition count P at least 1, the
chunk-splitting loop terminates — any iteration bound of at least
`length + 1` yields the same completed partition list — and the loop never
touches an index outside the arena: every partition descriptor satisfies
`start < length` and `start ≤ end ≤ length` (all byte accesses of the loop
happen inside `find_next`, which scans only indices below `length`).  This
covers the empty arena (zero partitions) and arenas with fewer newlines
than P - 1. -/
theorem c10_partition_terminates (data : Bytes) (P : Nat) (hP : 1 ≤ P) :
    (∀ fuel, data.length + 1 ≤ fuel →
      chunksLoopF data (data.length / P) fuel 0 = some (chunks data P))
    ∧ ∀ se ∈ chunks data P, se.1 < data.length ∧ se.1 ≤ se.2 ∧ se.2 ≤ data.length := by
  have hsome := chunksLoopF_isSome data (data.length / P) (data.length + 1) 0 (by omega)
  obtain ⟨l, hl⟩ := Option.isSome_iff_exists.mp hsome
  have hchunks : chunks data P = l := by rw [chunks, hl]; rfl
  constructor
  · intro fuel hf
    rw [chunksLoopF_agree data (data.length / P) fuel (data.length + 1) 0 (by omega) (by omega),
      hl, hchunks]
  · intro se hse
    obtain ⟨_, h2, h3, h4⟩ := chunksLoopF_bounds data (data.length / P) _ _ _ hl se (hchunks ▸ hse)
    exact ⟨h2, h3, h4⟩

/-- Witness for the C10 theorem on the concrete arena `a;1.1` plus newline
with P = 2. -/
theorem c10_partition_terminates_witness :
    (1 ≤ 2)
    ∧ ((∀ fuel, ([97, 59, 49, 46, 49, 10] : Bytes).length + 1 ≤ fuel →
        chunksLoopF [97, 59, 49, 46, 49, 10] (([97, 59, 49, 46, 49, 10] : Bytes).length / 2) fuel 0
          = some (chunks [97, 59, 49, 46, 49, 10] 2))
      ∧ ∀ se ∈ chunks [97, 59, 49, 46, 49, 10] 2,
          se.1 < ([97, 59, 49, 46, 49, 10] : Bytes).length ∧ se.1 ≤ se.2
          ∧ se.2 ≤ ([97, 59, 49, 46, 49, 10] : Bytes).length) :=
  ⟨by decide, c10_partition_terminates [97, 59, 49, 46, 49, 10] 2 (by decide)⟩

/-- Claim C4 counterexample: the 16-byte arena `a;1.1` newline `bbbbbb;2.2`
with no trailing newline, split for P = 2 (chunk size 8).  The loop finds no
newline at or after offset 8, so `find_next` falls back to returning its
start position 8, the first chunk is cut at 8 in the middle of the second
record, and the loop skips byte 8 (the letter b, value 98) as if it were a
separator newline.  The produced partitions are [(0,8), (9,16)]: the second
partition boundary is not immediately after a newline (byte 8 is 98, not
10), and reassembling the partitions does not reconstruct the arena, so the
claim fails at this input. -/
theorem c4_counterexample :
    chunks [97, 59, 49, 46, 49, 10, 98, 98, 98, 98, 98, 98, 59, 50, 46, 50] 2 = [(0, 8), (9, 16)]
    ∧ ([97, 59, 49, 46, 49, 10, 98, 98, 98, 98, 98, 98, 59, 50, 46, 50] : Bytes)[8]? = some 98
    ∧ glue [97, 59, 49, 46, 49, 10, 98, 98, 98, 98, 98, 98, 59, 50, 46, 50]
        (chunks [97, 59, 49, 46, 49, 10, 98, 98, 98, 98, 98, 98, 59, 50, 46, 50] 2)
      ≠ [97, 59, 49, 46, 49, 10, 98, 98, 98, 98, 98, 98, 59, 50, 46, 50] := by
  refine ⟨by decide, by decide, ?_⟩
  rw [show chunks [97, 59, 49, 46, 49, 10, 98, 98, 98, 98, 98, 98, 59, 50, 46, 50] 2
      = [(0, 8), (9, 16)] from by decide]
  decide

/-- Claim C4 (amended): provided the arena is empty or its last byte is a
newline, the partitions are contiguous, non-overlapping and in increasing
order (`chainFrom`), every partition end boundary is a newline position or
the end of the arena, and re-concatenating the partition byte ranges with
one separator newline after every partition cut strictly inside the arena
(`glue`) reconstructs the arena exactly.  (Without the trailing-newline
hypothesis the claim fails, see the counterexample: the loop then skips a
non-newline byte and cuts a partition in the middle of a record.) -/
theorem c4_partition_reconstruction (data : Bytes) (P : Nat) (hP : 1 ≤ P)
    (hNL : data = [] ∨ data[data.length - 1]? = some 10) :
    data = glue data (chunks data P)
    ∧ chainFrom 0 (chunks data P)
    ∧ ∀ se ∈ chunks data P, se.2 = data.length ∨ data[se.2]? = some 10 := by
  have hsome := chunksLoopF_isSome data (data.length / P) (data.length + 1) 0 (by omega)
  obtain ⟨l, hl⟩ := Option.isSome_iff_exists.mp hsome
  have hchunks : chunks data P = l := by rw [chunks, hl]; rfl
  obtain ⟨hg, hc, hb⟩ := c4_loop data (data.length / P) hNL (data.length + 1) 0 l hl
  rw [List.drop_zero] at hg
  rw [hchunks]
  exact ⟨hg, hc, hb⟩

/-- Witness for the C4 theorem on the concrete arena `a;1.1` plus a trailing
newline with P = 2. -/
theorem c4_partition_reconstruction_witness :
    (1 ≤ 2)
    ∧ (([97, 59, 49, 46, 49, 10] : Bytes) = []
        ∨ ([97, 59, 49, 46, 49, 10] : Bytes)[([97, 59, 49, 46, 49, 10] : Bytes).length - 1]?
          = some 10)
    ∧ ([97, 59, 49, 46, 49, 10] : Bytes)
        = glue [97, 59, 49, 46, 49, 10] (chunks [97, 59, 49, 46, 49, 10] 2)
      ∧ chainFrom 0 (chunks [97, 59, 49, 46, 49, 10] 2)
      ∧ ∀ se ∈ chunks [97, 59, 49, 46, 49, 10] 2,
          se.2 = ([97, 59, 49, 46, 49, 10] : Bytes).length
          ∨ ([97, 59, 49, 46, 49, 10] : Bytes)[se.2]? = some 10 :=
  ⟨by decide, by decide, c4_partition_reconstruction [97, 59, 49, 46, 49, 10] 2 (by decide) (by decide)⟩

theorem drop_append_le {α : Type} :
    ∀ (xs ys : List α) (n : Nat), n ≤ xs.length → (xs ++ ys).drop n = xs.drop n ++ ys := by
  intro xs
  induction xs with
  | nil =>
    intro ys n h
    have : n = 0 := by simpa using h
    subst this
    simp
  | cons a xs ih =>
    intro ys n h
    cases n with
    | zero => simp
    | succ m =>
      rw [List.cons_append, List.drop_succ_cons, List.drop_succ_cons]
      exact ih ys m (by simpa using h)

/-- Claim C6 counterexample: on the single-record input `X;0.0` plus
newline, with the cursor at 0, the parse step does NOT extract the key
bytes before the first semicolon: the semicolon search starts at offset
0 + 3, which is already past the real semicolon at offset 1, finds none,
and falls back to its start position 3, so the extracted key is `X;0`
instead of `X` and the value region is the two bytes `0` and newline
instead of `0.0`.  The claim is false for keys shorter than 3 bytes (the
code comment documents the assumption that keys have at least 3 bytes),
and in particular the claimed end-to-end behaviour of `X;0.0` fails. -/
theorem c6_counterexample :
    parse_line_parts [88, 59, 48, 46, 48, 10] 0 = ([88, 59, 48], [48, 10], 7)
    ∧ ([88, 59, 48] : Bytes) ≠ [88] := by
  exact ⟨by decide, by decide⟩

/-- Claim C6 (amended): for every well-formed record at the cursor whose
key has at least 3 bytes and contains no semicolon, and whose value region
has at least 2 bytes and contains no newline (both guaranteed by the value
grammar `-?[0-9]+.[0-9]`), one parse step extracts exactly the key bytes
before the record separator, exactly the value region between the
semicolon and the record newline, and advances the cursor one byte past
that newline.  (The original claim required only a 1-byte key; the skip-3
fast path of the code needs 3, see the counterexample.) -/
theorem c6_parse_extracts (pre key value rest : Bytes)
    (hklen : 3 ≤ key.length) (hksemi : (59 : Nat) ∉ key)
    (hvlen : 2 ≤ value.length) (hvnl : (10 : Nat) ∉ value) :
    parse_line_parts (pre ++ key ++ 59 :: (value ++ 10 :: rest)) pre.length
      = (key, value, pre.length + key.length + value.length + 2) := by
  have hdrop0 : (pre ++ key ++ 59 :: (value ++ 10 :: rest)).drop pre.length
      = key ++ 59 :: (value ++ 10 :: rest) := by
    rw [List.append_assoc]
    exact List.drop_left pre _
  have h1 : (pre ++ key ++ 59 :: (value ++ 10 :: rest)).drop (pre.length + 3)
      = key.drop 3 ++ 59 :: (value ++ 10 :: rest) := by
    rw [← List.drop_drop, hdrop0, drop_append_le key _ 3 (by omega)]
  have hsplit := find_next_split (pre ++ key ++ 59 :: (value ++ 10 :: rest)) (pre.length + 3) 59
      (key.drop 3) (value ++ 10 :: rest) h1 (fun hm => hksemi (List.drop_subset 3 key hm))
  rw [List.length_drop] at hsplit
  have hsplit2 : find_next (pre ++ key ++ 59 :: (value ++ 10 :: rest)) (pre.length + 3) 59
      = pre.length + key.length := by omega
  have hname : extract (pre ++ key ++ 59 :: (value ++ 10 :: rest)) pre.length
      (pre.length + key.length) = key := by
    rw [extract, show pre.length + key.length - pre.length = key.length by omega, hdrop0]
    exact List.take_left key _
  have hdropv : (pre ++ key ++ 59 :: (value ++ 10 :: rest)).drop (pre.length + key.length + 1)
      = value ++ 10 :: rest := by
    rw [show pre.length + key.length + 1 = pre.length + (key.length + 1) by omega,
      ← List.drop_drop, hdrop0,
      show key ++ 59 :: (value ++ 10 :: rest) = (key ++ [59]) ++ (value ++ 10 :: rest) by simp,
      show key.length + 1 = (key ++ [59]).length by simp]
    exact List.drop_left _ _
  have h2 : (pre ++ key ++ 59 :: (value ++ 10 :: rest)).drop (pre.length + key.length + 3)
      = value.drop 2 ++ 10 :: rest := by
    rw [show pre.length + key.length + 3 = pre.length + key.length + 1 + 2 by omega,
      ← List.drop_drop, hdropv, drop_append_le value _ 2 (by omega)]
  have hnl := find_next_split (pre ++ key ++ 59 :: (value ++ 10 :: rest))
      (pre.length + key.length + 3) 10 (value.drop 2) rest h2
      (fun hm => hvnl (List.drop_subset 2 value hm))
  rw [List.length_drop] at hnl
  have hnl2 : find_next (pre ++ key ++ 59 :: (value ++ 10 :: rest))
      (pre.length + key.length + 3) 10 = pre.length + key.length + value.length + 1 := by omega
  have hvalue : extract (pre ++ key ++ 59 :: (value ++ 10 :: rest))
      (pre.length + key.length + 1) (pre.length + key.length + value.length + 1) = value := by
    rw [extract,
      show pre.length + key.length + value.length + 1 - (pre.length + key.length + 1)
        = value.length by omega, hdropv]
    exact List.take_left value _
  simp only [parse_line_parts]
  rw [hsplit2, hname]
  rw [show pre.length + key.length + 3 = pre.length + key.length + 3 from rfl, hnl2]
  rw [show pre.length + key.length + value.length + 1 + 1 - 1
      = pre.length + key.length + value.length + 1 from by omega, hvalue]

/-- Witness for the C6 theorem on the record `Abc;1.0` plus newline at
cursor 0. -/
theorem c6_parse_extracts_witness :
    (3 ≤ ([65, 98, 99] : Bytes).length)
    ∧ ((59 : Nat) ∉ ([65, 98, 99] : Bytes))
    ∧ (2 ≤ ([49, 46, 48] : Bytes).length)
    ∧ ((10 : Nat) ∉ ([49, 46, 48] : Bytes))
    ∧ parse_line_parts ([] ++ [65, 98, 99] ++ 59 :: ([49, 46, 48] ++ 10 :: []))
        ([] : Bytes).length
      = ([65, 98, 99], [49, 46, 48],
          ([] : Bytes).length + ([65, 98, 99] : Bytes).length + ([49, 46, 48] : Bytes).length + 2) :=
  ⟨by decide, by decide, by decide, by decide,
    c6_parse_extracts [] [65, 98, 99] [49, 46, 48] []
      (by decide) (by decide) (by decide) (by decide)⟩

theorem wrap32_eq_self (n : Int) (h1 : -2147483648 ≤ n) (h2 : n < 2147483648) :
    wrap32 n = n := by
  unfold wrap32
  omega

theorem u8sub_digit (b : Nat) (h1 : 48 ≤ b) (h2 : b ≤ 57) : u8sub b 48 = b - 48 := by
  unfold u8sub
  omega

theorem decFold_ge : ∀ (ds : Bytes) (a : Nat),
    a ≤ ds.foldl (fun x d => x * 10 + (d - 48)) a := by
  intro ds
  induction ds with
  | nil => intro a; exact Nat.le.refl
  | cons d ds ih =>
    intro a
    rw [List.foldl_cons]
    exact le_trans (by omega : a ≤ a * 10 + (d - 48)) (ih _)

theorem wrapFold_eq : ∀ (ds : Bytes) (a : Nat),
    (∀ d ∈ ds, 48 ≤ d ∧ d ≤ 57) →
    ds.foldl (fun x d => x * 10 + (d - 48)) a < 2147483648 →
    ds.foldl (fun r b => wrap32 (r * 10 + (u8sub b 48 : Nat))) ((a : Nat) : Int)
      = ((ds.foldl (fun x d => x * 10 + (d - 48)) a : Nat) : Int) := by
  intro ds
  induction ds with
  | nil => intro a _ _; rfl
  | cons d ds ih =>
    intro a hdig hbound
    rw [List.foldl_cons] at hbound
    simp only [List.foldl_cons]
    have hd := hdig d (List.mem_cons_self d ds)
    have hle : (a * 10 + (d - 48) : Nat) < 2147483648 :=
      lt_of_le_of_lt (decFold_ge ds _) hbound
    have hstep : wrap32 ((a : Int) * 10 + (u8sub d 48 : Nat))
        = ((a * 10 + (d - 48) : Nat) : Int) := by
      rw [u8sub_digit d hd.1 hd.2,
        show ((a : Int) * 10 + ((d - 48 : Nat) : Int)) = ((a * 10 + (d - 48) : Nat) : Int) by
          push_cast; ring]
      exact wrap32_eq_self _ (by omega) (by omega)
    rw [hstep]
    exact ih _ (fun d2 h2 => hdig d2 (List.mem_cons_of_mem d h2)) hbound

theorem getD_append_pair : ∀ (xs : Bytes) (c f : Nat),
    (xs ++ [c, f]).getD (xs.length + 1) 0 = f := by
  intro xs
  induction xs with
  | nil => intro c f; rfl
  | cons a xs ih => intro c f; exact ih c f

/-- Claim C7 counterexample: the value region `300000000.0` matches the
grammar -?[0-9]+.[0-9] and its exact scaled value is 3000000000, but the
i32 arithmetic of `parse_value` wraps at 2^31 (release profile; the debug
profile panics on the same multiplication), so the parser returns
-1294967296, not the exact scaled integer. -/
theorem c7_counterexample :
    parse_value [51, 48, 48, 48, 48, 48, 48, 48, 48, 46, 48] = -1294967296
    ∧ decNat [51, 48, 48, 48, 48, 48, 48, 48, 48] * 10 + (48 - 48) = 3000000000
    ∧ (-1294967296 : Int) ≠ 3000000000 := by
  exact ⟨by decide, by decide, by decide⟩

/-- Claim C7 (amended): for every value region matching -?[0-9]+.[0-9]
whose scaled value fits in i32 (below 2^31), the value parser returns the
exact scaled integer (integer part) * 10 + fractional digit, negated when
the leading byte is a minus, using only integer arithmetic; in particular
the region `-0.3` decodes to -3, not +3 (see the witness).  (The original
claim had no magnitude bound; on regions whose scaled value overflows i32
the code wraps and is not exact, see the counterexample.) -/
theorem c7_parse_value_exact (ds : Bytes) (f : Nat)
    (hds : ds ≠ []) (hdig : ∀ d ∈ ds, 48 ≤ d ∧ d ≤ 57) (hf : 48 ≤ f ∧ f ≤ 57)
    (hbound : decNat ds * 10 + (f - 48) < 2147483648) :
    parse_value (ds ++ [46, f]) = ((decNat ds * 10 + (f - 48) : Nat) : Int)
    ∧ parse_value (45 :: (ds ++ [46, f])) = -((decNat ds * 10 + (f - 48) : Nat) : Int) := by
  have hfold : (ds.foldl (fun r b => wrap32 (r * 10 + (u8sub b 48 : Nat))) ((0 : Nat) : Int))
      = ((decNat ds : Nat) : Int) := by
    exact wrapFold_eq ds 0 hdig (by unfold decNat at hbound; omega)
  have hcast0 : ((0 : Nat) : Int) = (0 : Int) := rfl
  rw [hcast0] at hfold
  have hdN : decNat ds < 2147483648 := by omega
  have hfinal : wrap32 (((decNat ds : Nat) : Int) * 10 + (u8sub f 48 : Nat))
      = ((decNat ds * 10 + (f - 48) : Nat) : Int) := by
    rw [u8sub_digit f hf.1 hf.2,
      show (((decNat ds : Nat) : Int) * 10 + ((f - 48 : Nat) : Int))
        = ((decNat ds * 10 + (f - 48) : Nat) : Int) by push_cast; ring]
    exact wrap32_eq_self _ (by omega) (by omega)
  constructor
  · obtain ⟨d0, ds2, rfl⟩ : ∃ d0 ds2, ds = d0 :: ds2 := by
      cases ds with
      | nil => exact absurd rfl hds
      | cons d0 ds2 => exact ⟨d0, ds2, rfl⟩
    have hd0 := hdig d0 (List.mem_cons_self d0 ds2)
    simp only [parse_value]
    rw [show ((d0 :: ds2) ++ [46, f]).getD 0 0 = d0 from rfl]
    rw [if_neg (by omega : ¬ (d0 = 45))]
    rw [if_neg (by omega : ¬ (d0 = 45))]
    rw [show ((d0 :: ds2) ++ [46, f]).length - 2 = (d0 :: ds2).length by
      simp only [List.length_append, List.length_cons, List.length_nil]; omega]
    rw [List.take_left (d0 :: ds2) [46, f], List.drop_zero]
    rw [show ((d0 :: ds2) ++ [46, f]).length - 1 = (d0 :: ds2).length + 1 by
      simp only [List.length_append, List.length_cons, List.length_nil]; omega]
    rw [getD_append_pair (d0 :: ds2) 46 f]
    rw [hfold, hfinal]
  · simp only [parse_value]
    rw [show (45 :: (ds ++ [46, f])).getD 0 0 = 45 from rfl]
    rw [if_pos rfl, if_pos rfl]
    rw [show (45 :: (ds ++ [46, f])).length - 2 = ds.length + 1 by
      simp only [List.length_append, List.length_cons, List.length_nil]; omega]
    rw [show (45 :: (ds ++ [46, f])).take (ds.length + 1) = 45 :: ds by
      rw [List.take_succ_cons, List.take_left ds [46, f]]]
    rw [List.drop_succ_cons, List.drop_zero]
    rw [show (45 :: (ds ++ [46, f])).length - 1 = ds.length + 2 by
      simp only [List.length_append, List.length_cons, List.length_nil]; omega]
    rw [show (45 :: (ds ++ [46, f])).getD (ds.length + 2) 0
        = (ds ++ [46, f]).getD (ds.length + 1) 0 from rfl]
    rw [getD_append_pair ds 46 f]
    rw [hfold, hfinal]
    exact wrap32_eq_self _ (by omega) (by omega)

/-- Witness for the C7 theorem on the value region `-0.3`, the negative
parsing example of the specification: the scaled result is -3. -/
theorem c7_parse_value_exact_witness :
    (decNat [48] * 10 + (51 - 48) < 2147483648)
    ∧ parse_value [45, 48, 46, 51] = -((decNat [48] * 10 + (51 - 48) : Nat) : Int)
    ∧ parse_value [45, 48, 46, 51] = -3 :=
  ⟨by decide,
    (c7_parse_value_exact [48] 51 (by decide) (by decide) (by decide) (by decide)).2,
    ((c7_parse_value_exact [48] 51 (by decide) (by decide) (by decide) (by decide)).2).trans
      (by decide)⟩

theorem pushAt_cons_zero {α : Type} (a : List α) (l : List (List α)) (x : α) :
    pushAt (a :: l) 0 x = (a ++ [x]) :: l := rfl

theorem pushAt_cons_succ {α : Type} (a : List α) (l : List (List α)) (i : Nat) (x : α) :
    pushAt (a :: l) (i + 1) x = a :: pushAt l i x := rfl

theorem pushAt_length {α : Type} (bs : List (List α)) (i : Nat) (x : α) :
    (pushAt bs i x).length = bs.length := List.length_set bs i _

theorem flatten_pushAt_perm {α : Type} :
    ∀ (l : List (List α)) (i : Nat) (x : α), i < l.length →
      (pushAt l i x).flatten.Perm (l.flatten ++ [x]) := by
  intro l
  induction l with
  | nil => intro i x h; simp at h
  | cons a t ih =>
    intro i x h
    cases i with
    | zero =>
      rw [pushAt_cons_zero, List.flatten_cons, List.flatten_cons, List.append_assoc,
        List.append_assoc]
      exact List.Perm.append_left a List.perm_append_comm
    | succ j =>
      rw [pushAt_cons_succ, List.flatten_cons, List.flatten_cons, List.append_assoc]
      exact List.Perm.append_left a (ih j x (by simpa using h))

theorem foldl_push_length {α : Type} (n : Nat) :
    ∀ (es : List (Nat × α)) (acc : List (List (Nat × α))),
      (es.foldl (fun a kv => pushAt a (kv.1 % n) kv) acc).length = acc.length := by
  intro es
  induction es with
  | nil => intro acc; rfl
  | cons kv es ih =>
    intro acc
    simp only [List.foldl_cons]
    rw [ih, pushAt_length]

theorem foldl_push_flatten_perm {α : Type} (n : Nat) (hn : 0 < n) :
    ∀ (es : List (Nat × α)) (acc : List (List (Nat × α))), acc.length = n →
      (es.foldl (fun a kv => pushAt a (kv.1 % n) kv) acc).flatten.Perm (acc.flatten ++ es) := by
  intro es
  induction es with
  | nil => intro acc _; simp
  | cons kv es ih =>
    intro acc hlen
    simp only [List.foldl_cons]
    have h1 := ih (pushAt acc (kv.1 % n) kv) (by rw [pushAt_length]; exact hlen)
    have h2 := flatten_pushAt_perm acc (kv.1 % n) kv (by rw [hlen]; exact Nat.mod_lt _ hn)
    have h3 := h2.append_right es
    have h4 : (acc.flatten ++ [kv]) ++ es = acc.flatten ++ (kv :: es) := by
      rw [List.append_assoc, List.singleton_append]
    exact h1.trans (h4 ▸ h3)

/-- Claim C9: resize is triggered exactly when the stored entry count has
reached 75 percent of the current bucket count — the bucket count observed
after an `insert_or_update` call is doubled precisely when
`size >= buckets.len() * 3 / 4` held before the call, and unchanged
otherwise (last conjunct) — `resize()` doubles the bucket count (first
conjunct) and rehashes every entry into the new bucket array preserving
the multiset of `(key hash, Aggregate)` entries exactly: the entry list
after a resize is a permutation of the entry list before it (second
conjunct), so no entry is lost or duplicated. -/
theorem c9_resize_preserves :
    ∀ (t : HashTable Result),
      (t.resize.buckets.length = 2 * t.buckets.length)
      ∧ t.resize.key_set.Perm t.key_set
      ∧ t.resize.size = t.size
      ∧ ∀ (k : Nat) (modify : Result → Result) (provide : Unit → Result),
          (t.insert_or_update k modify provide).buckets.length
            = if t.buckets.length * 3 / 4 ≤ t.size then 2 * t.buckets.length
              else t.buckets.length := by
  intro t
  have hrlen : t.resize.buckets.length = 2 * t.buckets.length := by
    simp only [HashTable.resize]
    rw [foldl_push_length, List.length_replicate]
    omega
  refine ⟨hrlen, ?_, rfl, ?_⟩
  · simp only [HashTable.resize, HashTable.key_set]
    by_cases h0 : t.buckets.length = 0
    · have hb : t.buckets = [] := List.length_eq_zero.mp h0
      rw [hb]
      simp
    · have hperm := foldl_push_flatten_perm (t.buckets.length * 2) (by omega)
        t.buckets.flatten (List.replicate (t.buckets.length * 2) [])
        (List.length_replicate _ _)
      rw [flatten_replicate_nil, List.nil_append] at hperm
      exact hperm
  · intro k modify provide
    simp only [HashTable.insert_or_update]
    by_cases hcond : t.buckets.length * 3 / 4 ≤ t.size
    · rw [if_pos hcond, if_pos hcond]
      cases hm : modifyFirst (t.resize.buckets.getD (k % t.resize.buckets.length) []) k modify with
      | some b1 => exact (List.length_set _ _ _).trans hrlen
      | none => exact (pushAt_length _ _ _).trans hrlen
    · rw [if_neg hcond, if_neg hcond]
      cases hm : modifyFirst (t.buckets.getD (k % t.buckets.length) []) k modify with
      | some b1 => exact List.length_set _ _ _
      | none => exact pushAt_length _ _ _

end OneBRC
